import Mathlib

/-!
Verification of the lazy sequence-operator library (src/iterators).

The JavaScript/TypeScript generators are shallowly embedded as Lean functions
on `List`.  A generator that is driven to exhaustion by its consumer emits a
finite list of values; that list is what each embedded function computes.
JavaScript `undefined` — which several operators use as a sentinel (`dedup`'s
initial `lastValue`, `reduce`'s absent accumulator) — is modelled by `Option`:
`none` is `undefined`, `some v` is the defined value `v`.  JavaScript `%`
returns `NaN` when the right operand is `0`, so every `i % step === 0` test in
the source is embedded as `step ≠ 0 ∧ i % step = 0`.

Namespace `Streams` embeds `src/iterators/streams.ts` (and `streams.js`,
which is the same code minus types plus `take`); namespace `Lists` embeds
`src/iterators/lists.js` where its operators differ.
-/

namespace Streams

variable {α β γ : Type}

/-- `empty(iterable)` from streams.ts: the `for` loop returns `false` on the
first element, `true` if there is none. -/
def empty (l : List α) : Bool :=
  match l with
  | [] => true
  | _ :: _ => false

/-- `filter(iterable, fun)` from streams.ts: yields the elements for which
`fun` is truthy (truthiness is pre-applied, so the predicate is `Bool`). -/
def filter (l : List α) (f : α → Bool) : List α :=
  match l with
  | [] => []
  | x :: xs => if f x then x :: filter xs f else filter xs f

/-- `reject(iterable, fun)` from streams.ts: `filter` with the predicate
negated. -/
def reject (l : List α) (f : α → Bool) : List α :=
  filter l (fun x => !f x)

/-- `all(iterable, fun)` from streams.ts: `empty(reject(iterable, fun))`. -/
def all (l : List α) (f : α → Bool) : Bool :=
  empty (reject l f)

/-- `any(iterable, fun)` from streams.ts: `!empty(filter(iterable, fun))`. -/
def any (l : List α) (f : α → Bool) : Bool :=
  !empty (filter l f)

/-- `map(iterable, fun)` from streams.ts. -/
def map (l : List α) (f : α → β) : List β :=
  match l with
  | [] => []
  | x :: xs => f x :: map xs f

/-- `concat(iterable)` from streams.ts: drains each inner iterable fully, in
outer order. -/
def concat (ls : List (List α)) : List α :=
  match ls with
  | [] => []
  | l :: rest => l ++ concat rest

/-- The loop body of `chunkEvery` from streams.ts, with the loop state made
explicit: `i` is the element index, `currents` the open windows, newest
first (`unshift` puts the new window at the front).  Each incoming element is
appended to every open window; when the last (= oldest) window reaches
`count` elements it is yielded and popped.  On exhaustion the remaining
`currents` are yielded front to back, i.e. newest-opened first.  The JS test
`i++ % step === 0` is `false` for `step = 0` (`i % 0` is `NaN`), hence the
`step ≠ 0` guard; the optional chaining in
`currents[currents.length - 1]?.length === count` is the `getLast?` match. -/
def chunkEveryAux (count step : Nat) : Nat → List (List α) → List α → List (List α)
  | _, currents, [] => currents
  | i, currents, x :: rest =>
    let cs := (if step ≠ 0 ∧ i % step = 0 then [] :: currents else currents).map
      (fun c => c ++ [x])
    match cs.getLast? with
    | some last =>
      if last.length = count then
        last :: chunkEveryAux count step (i + 1) cs.dropLast rest
      else
        chunkEveryAux count step (i + 1) cs rest
    | none => chunkEveryAux count step (i + 1) cs rest

/-- `chunkEvery(iterable, count, step)` from streams.ts. -/
def chunkEvery (l : List α) (count step : Nat) : List (List α) :=
  chunkEveryAux count step 0 [] l

/-- The loop of `drop(iterable, n)` from streams.ts: `c` is the `count`
variable; an element is yielded when `count++ >= n`. -/
def dropAux (n : Nat) : Nat → List α → List α
  | _, [] => []
  | c, x :: xs => if n ≤ c then x :: dropAux n (c + 1) xs else dropAux n (c + 1) xs

/-- `drop(iterable, n)` from streams.ts. -/
def drop (l : List α) (n : Nat) : List α :=
  dropAux n 0 l

/-- The loop of `take(iterable, n)` from streams.js: pull an element, stop if
`count++ >= n`, otherwise yield it. -/
def takeAux (n : Nat) : Nat → List α → List α
  | _, [] => []
  | c, x :: xs => if n ≤ c then [] else x :: takeAux n (c + 1) xs

/-- `take(iterable, n)` from streams.js: the elements emitted when the
consumer drains the generator. -/
def take (l : List α) (n : Nat) : List α :=
  takeAux n 0 l

/-- How many elements `take(iterable, n)` pulls from its upstream source when
the consumer drains it: each loop iteration of the source code pulls exactly
one upstream element, including the final iteration that only observes
`count++ >= n` and breaks. -/
def takePullsAux (n : Nat) : Nat → List α → Nat
  | _, [] => 0
  | c, _ :: xs => if n ≤ c then 1 else takePullsAux n (c + 1) xs + 1

/-- Number of upstream pulls performed by a drained `take(iterable, n)`. -/
def takePulls (l : List α) (n : Nat) : Nat :=
  takePullsAux n 0 l

/-- `dropEvery(iterable, n)` from streams.ts/streams.js.  The source is a
generator function whose body is `return concat(map(chunkEvery(iterable, n),
(it) => drop(it, 1)))`: the expression becomes the generator's *return
value*, which iteration discards, and no `yield` is ever executed.  Draining
the generator therefore emits no elements at all. -/
def dropEvery (_ : List α) (_ : Nat) : List α :=
  []

/-- The expression that streams.ts `dropEvery` builds and then returns
instead of yielding: chunk into non-overlapping groups of `n`, drop each
group's first element, re-concatenate. -/
def dropEveryReturned (l : List α) (n : Nat) : List α :=
  concat (map (chunkEvery l n n) (fun it => drop it 1))

/-- The loop of `dedup(iterable, fun)` from streams.ts: `last` is the
`lastValue` variable, initially `undefined` (`none`); an element is yielded,
and `lastValue` updated, exactly when `fun(item) !== lastValue`.  Key values
live in `Option β` because `fun` may itself return `undefined`. -/
def dedupAux (f : α → Option β) [DecidableEq β] : Option β → List α → List α
  | _, [] => []
  | last, x :: xs =>
    if f x ≠ last then x :: dedupAux f (f x) xs else dedupAux f last xs

/-- `dedup(iterable, fun)` from streams.ts (identical code in lists.js). -/
def dedup [DecidableEq β] (l : List α) (f : α → Option β) : List α :=
  dedupAux f none l

/-- The loop of `reduce(iterable, fun, initial)` from streams.ts: whenever
the accumulator is `undefined` (`none`) the incoming element replaces it,
otherwise `fun` is applied. -/
def reduceAux (f : Option β → Option β → Option β) : Option β → List (Option β) → Option β
  | acc, [] => acc
  | acc, item :: rest =>
    reduceAux f (match acc with | none => item | some a => f (some a) item) rest

/-- `reduce(iterable, fun, initial)` from streams.ts; an omitted `initial` is
`none`. -/
def reduce (l : List (Option β)) (f : Option β → Option β → Option β)
    (initial : Option β) : Option β :=
  reduceAux f initial l

/-- `max(iterable, sorter)` from streams.ts:
`reduce(iterable, (a, b) => (sorter(a, b) ? b : a))`. -/
def max (l : List (Option β)) (sorter : Option β → Option β → Bool) : Option β :=
  reduce l (fun a b => if sorter a b then b else a) none

/-- `maxBy(iterable, fun, sorter)` from streams.ts:
`reduce(iterable, (a, b) => (sorter(fun(a), fun(b)) ? a : b))`.  Note the
branches: `a` is kept when the sorter is truthy. -/
def maxBy (l : List (Option β)) (f : Option β → γ) (sorter : γ → γ → Bool) :
    Option β :=
  reduce l (fun a b => if sorter (f a) (f b) then a else b) none

/-- The default comparator `(a, b) => a <= b` of streams.ts, on JS values
that are either numbers or `undefined`: any comparison involving `undefined`
is a `NaN` comparison and yields `false`. -/
def jsLe (a b : Option Int) : Bool :=
  match a, b with
  | some a, some b => decide (a ≤ b)
  | _, _ => false

end Streams

namespace Lists

variable {α β : Type}

/-- `all(iterable, fun)` from lists.js: returns `false` on the first element
with a falsy `fun(element)`, `true` once the loop finishes. -/
def all (l : List α) (f : α → Bool) : Bool :=
  match l with
  | [] => true
  | x :: xs => if !f x then false else all xs f

/-- `any(iterable, fun)` from lists.js: returns `true` on the first element
with a truthy `fun(element)`, `false` once the loop finishes. -/
def any (l : List α) (f : α → Bool) : Bool :=
  match l with
  | [] => false
  | x :: xs => if f x then true else any xs f

/-- The loop of `dropEvery(iterable, n)` from lists.js: `c` is the `count`
variable; an element is yielded when `++count % n !== 0` (for `n = 0` the
test is `NaN !== 0`, i.e. always yield). -/
def dropEveryAux (n : Nat) : Nat → List α → List α
  | _, [] => []
  | c, x :: xs =>
    if n ≠ 0 ∧ (c + 1) % n = 0 then dropEveryAux n (c + 1) xs
    else x :: dropEveryAux n (c + 1) xs

/-- `dropEvery(iterable, n)` from lists.js. -/
def dropEvery (l : List α) (n : Nat) : List α :=
  dropEveryAux n 0 l

end Lists

/-!
### Specification-side definitions

The following definitions do not embed source code; they give the closed-form
description of `chunkEvery`'s output against which the embedded code is
verified, plus the bookkeeping used by the equivalence proof.
-/

section SpecSide

variable {α β : Type}

/-- The window of capacity `count` that opens at index `s` of `l`: the next
`count` elements from position `s` (fewer if `l` runs out). -/
def theWindow (l : List α) (count s : Nat) : List α :=
  (l.drop s).take count

/-- The start indices of the windows `chunkEvery` opens on input `l`: a
window opens every `step` elements starting at index 0, so the starts are
`0, step, 2*step, …` while they are below `l.length` — `⌈l.length/step⌉`
of them. -/
def windowStarts (l : List α) (step : Nat) : List Nat :=
  (List.range ((l.length + step - 1) / step)).map (· * step)

/-- The windows that fill to their capacity `count` before the input is
exhausted, in opening order. -/
def fullWindows (l : List α) (count step : Nat) : List (List α) :=
  ((windowStarts l step).filter (fun s => decide (s + count ≤ l.length))).map
    (theWindow l count)

/-- The windows still open — holding fewer than `count` elements — when the
input is exhausted, in opening order (oldest-opened first). -/
def underfullWindows (l : List α) (count step : Nat) : List (List α) :=
  ((windowStarts l step).filter (fun s => decide (l.length < s + count))).map
    (theWindow l count)

/-- Recursive specification of `chunkEvery`: the first window holds the
first `count` elements; the remaining output is the specification applied
`step` further in.  A full first window is emitted before everything else
(it closes first); an under-filled first window is emitted after everything
else (trailing windows drain newest-opened first).  The recursive call is on
`xs.drop (step - 1)`, which equals `(x :: xs).drop step` for positive
`step`. -/
def chunkSpec (count step : Nat) : List α → List (List α)
  | [] => []
  | x :: xs =>
    if count ≤ xs.length + 1 then
      (x :: xs).take count :: chunkSpec count step (xs.drop (step - 1))
    else
      chunkSpec count step (xs.drop (step - 1)) ++ [x :: xs]
termination_by l => l.length
decreasing_by
  all_goals simp only [List.length_cons]
  all_goals exact Nat.lt_succ_of_le (List.length_drop _ _ ▸ Nat.sub_le _ _)

/-- `chunkEveryAux` with the absolute index replaced by its residue
`r = i % step`; the recursive call advances the residue cyclically.  Used
only inside proofs (the bridge lemma identifies it with `chunkEveryAux` for
positive `step`). -/
def chunkEveryAuxR (count step : Nat) : Nat → List (List α) → List α → List (List α)
  | _, currents, [] => currents
  | r, currents, x :: rest =>
    let cs := (if r = 0 then [] :: currents else currents).map (fun c => c ++ [x])
    match cs.getLast? with
    | some last =>
      if last.length = count then
        last :: chunkEveryAuxR count step ((r + 1) % step) cs.dropLast rest
      else
        chunkEveryAuxR count step ((r + 1) % step) cs rest
    | none => chunkEveryAuxR count step ((r + 1) % step) cs rest

/-- How the open windows `ws` are completed by the remaining input `l`:
every window that still receives enough elements to reach `count` is closed,
in the order `ws` lists them, each extended by the elements it still
absorbs. -/
def comps (count : Nat) (ws : List (List α)) (l : List α) : List (List α) :=
  match ws with
  | [] => []
  | w :: t =>
    if count - w.length ≤ l.length then
      (w ++ l.take (count - w.length)) :: comps count t l
    else
      comps count t l

/-- The open windows of `ws` that never reach `count` before the remaining
input `l` runs out: each absorbs all of `l` and stays under capacity, in the
order `ws` lists them. -/
def trails (count : Nat) (ws : List (List α)) (l : List α) : List (List α) :=
  match ws with
  | [] => []
  | w :: t =>
    if l.length < count - w.length then (w ++ l) :: trails count t l
    else trails count t l

/-- The shape of `chunkEvery`'s open-window list: window lengths form an
arithmetic progression with difference `step`, newest window (of length `a`)
first. -/
inductive Chain (step : Nat) : Nat → List (List α) → Prop
  | nil : ∀ a, Chain step a []
  | cons : ∀ a (w : List α) t, w.length = a → Chain step (a + step) t →
      Chain step a (w :: t)

/-- Invariant of `chunkEveryAuxR` at residue `r`: the open windows form a
`Chain` whose newest window has length `step` when `r = 0` (it opened a full
cycle ago) and `r` otherwise, and every open window is under capacity. -/
def WinInv (count step r : Nat) (cs : List (List α)) : Prop :=
  Chain step (if r = 0 then step else r) cs ∧ ∀ w ∈ cs, w.length < count

/-- The element-by-element behaviour `dedup` is specified to have (used for
the refinement comparison): the first element is always emitted; afterwards
`lastKey` is the key of the most recently emitted element and an element is
emitted exactly when its key differs from it. -/
def dedupSpecAux [DecidableEq β] (f : α → β) : β → List α → List α
  | _, [] => []
  | lastKey, x :: xs =>
    if f x = lastKey then dedupSpecAux f lastKey xs
    else x :: dedupSpecAux f (f x) xs

/-- Specification-shaped `dedup` (from the claim's words): always emit the
first element, then emit exactly on a key change relative to the previous
emitted element. -/
def dedupSpec [DecidableEq β] (f : α → β) : List α → List α
  | [] => []
  | x :: xs => x :: dedupSpecAux f (f x) xs

end SpecSide

/-!
### Proof infrastructure for `chunkEvery`
-/

section ChunkProofs

variable {α β : Type}

theorem auxR_bridge (count step : Nat) (hs : 0 < step) (l : List α) :
    ∀ (i : Nat) (cs : List (List α)),
      Streams.chunkEveryAux count step i cs l = chunkEveryAuxR count step (i % step) cs l := by
  induction l with
  | nil => intro i cs; rfl
  | cons x rest ih =>
    intro i cs
    have hmod : (i + 1) % step = (i % step + 1) % step := by
      rw [Nat.add_mod i 1 step, Nat.add_mod (i % step) 1 step,
        Nat.mod_mod_of_dvd i (dvd_refl step)]
    simp only [Streams.chunkEveryAux, chunkEveryAuxR, ne_eq, hs.ne', not_false_eq_true,
      true_and]
    rcases hL : ((if i % step = 0 then [] :: cs else cs).map (fun c => c ++ [x])).getLast?
      with _ | last
    · simp only [hL]
      rw [ih, hmod]
    · simp only [hL]
      by_cases hlen : last.length = count
      · rw [if_pos hlen, if_pos hlen, ih, hmod]
      · rw [if_neg hlen, if_neg hlen, ih, hmod]

theorem comps_nil (count : Nat) (ws : List (List α))
    (h : ∀ w ∈ ws, w.length < count) : comps count ws [] = [] := by
  induction ws with
  | nil => rfl
  | cons w t ih =>
    have hw : w.length < count := h w (List.mem_cons_self _ _)
    rw [comps, if_neg (by simp only [List.length_nil]; omega)]
    exact ih fun u hu => h u (List.mem_cons_of_mem _ hu)

theorem trails_nil (count : Nat) (ws : List (List α))
    (h : ∀ w ∈ ws, w.length < count) : trails count ws [] = ws := by
  induction ws with
  | nil => rfl
  | cons w t ih =>
    have hw : w.length < count := h w (List.mem_cons_self _ _)
    rw [trails, if_pos (by simp only [List.length_nil]; omega), List.append_nil]
    rw [ih fun u hu => h u (List.mem_cons_of_mem _ hu)]

theorem comps_append (count : Nat) (a b : List (List α)) (l : List α) :
    comps count (a ++ b) l = comps count a l ++ comps count b l := by
  induction a with
  | nil => rfl
  | cons w t ih =>
    simp only [List.cons_append, comps]
    split
    · simp [ih]
    · exact ih

theorem trails_append (count : Nat) (a b : List (List α)) (l : List α) :
    trails count (a ++ b) l = trails count a l ++ trails count b l := by
  induction a with
  | nil => rfl
  | cons w t ih =>
    simp only [List.cons_append, trails]
    split
    · simp [ih]
    · exact ih

theorem comps_step (count : Nat) (x : α) (rest : List α) :
    ∀ (ws : List (List α)), (∀ w ∈ ws, w.length < count) →
      comps count ws (x :: rest) = comps count (ws.map (fun c => c ++ [x])) rest := by
  intro ws h
  induction ws with
  | nil => rfl
  | cons w t ih =>
    have hw : w.length < count := h w (List.mem_cons_self _ _)
    have ht := ih fun u hu => h u (List.mem_cons_of_mem _ hu)
    simp only [List.map_cons, comps, List.length_cons, List.length_append,
      List.length_singleton, List.length_nil]
    by_cases hc : count - w.length ≤ rest.length + 1
    · rw [if_pos hc, if_pos (by omega), ht]
      congr 1
      have hk : count - w.length = (count - (w.length + 1)) + 1 := by omega
      rw [hk, List.take_succ_cons, List.append_assoc, List.singleton_append]
    · rw [if_neg hc, if_neg (by omega), ht]

theorem trails_step (count : Nat) (x : α) (rest : List α) (ws : List (List α)) :
    trails count ws (x :: rest) = trails count (ws.map (fun c => c ++ [x])) rest := by
  induction ws with
  | nil => rfl
  | cons w t ih =>
    simp only [List.map_cons, trails, List.length_cons, List.length_append,
      List.length_singleton, List.length_nil]
    by_cases hc : rest.length + 1 < count - w.length
    · rw [if_pos hc, if_pos (by omega), ih]
      congr 1
      rw [List.append_assoc, List.singleton_append]
    · rw [if_neg hc, if_neg (by omega), ih]

theorem chain_map_succ {step a : Nat} {cs : List (List α)} (x : α)
    (h : Chain step a cs) :
    Chain step (a + 1) (cs.map (fun c => c ++ [x])) := by
  induction h with
  | nil a => exact Chain.nil _
  | cons a w t hw ht ih =>
    refine Chain.cons _ _ _ (by simp [hw]) ?_
    have : a + 1 + step = a + step + 1 := by omega
    rw [this]
    exact ih

theorem chain_concat {step a : Nat} {ws : List (List α)} {wl : List α}
    (h : Chain step a (ws ++ [wl])) :
    Chain step a ws ∧ wl.length = a + ws.length * step := by
  induction ws generalizing a with
  | nil =>
    rcases h with _ | ⟨_, _, _, hw, _⟩
    exact ⟨Chain.nil _, by simpa using hw⟩
  | cons w t ih =>
    rcases h with _ | ⟨_, _, _, hw, ht⟩
    obtain ⟨h1, h2⟩ := ih ht
    refine ⟨Chain.cons _ _ _ hw h1, ?_⟩
    rw [h2]
    simp only [List.length_cons]
    ring

theorem chain_mem {step a : Nat} {cs : List (List α)} (h : Chain step a cs) :
    ∀ w ∈ cs, ∃ j, j < cs.length ∧ w.length = a + j * step := by
  induction h with
  | nil a => intro w hw; cases hw
  | cons a w t hw ht ih =>
    intro u hu
    rcases List.mem_cons.mp hu with rfl | hu
    · exact ⟨0, by simp, by simp [hw]⟩
    · obtain ⟨j, hj, hl⟩ := ih u hu
      exact ⟨j + 1, by simpa using Nat.succ_lt_succ hj, by rw [hl]; ring⟩

theorem chain_lt_concat {step a : Nat} {ws : List (List α)} {wl : List α}
    (hs : 0 < step) (h : Chain step a (ws ++ [wl])) :
    ∀ w ∈ ws, w.length < wl.length := by
  obtain ⟨h1, h2⟩ := chain_concat h
  intro w hw
  obtain ⟨j, hj, hl⟩ := chain_mem h1 w hw
  rw [hl, h2]
  have : j * step < ws.length * step := (Nat.mul_lt_mul_right hs).mpr hj
  omega

theorem chain_ge {step a : Nat} {cs : List (List α)} (h : Chain step a cs) :
    ∀ w ∈ cs, a ≤ w.length := by
  intro w hw
  obtain ⟨j, _, hl⟩ := chain_mem h w hw
  omega

end ChunkProofs

section ChunkMain

variable {α β : Type}

theorem chunkSpec_cons_split (count step : Nat) (hc : 0 < count) (x : α) (rest : List α) :
    chunkSpec count step (x :: rest) =
      comps count [[x]] rest ++ chunkSpec count step (rest.drop (step - 1)) ++
        trails count [[x]] rest := by
  by_cases h : count ≤ rest.length + 1
  · have hcm : count - ([x] : List α).length ≤ rest.length := by
      simp only [List.length_singleton]; omega
    have htr : ¬ rest.length < count - ([x] : List α).length := by
      simp only [List.length_singleton]; omega
    have ht : (x :: rest).take count = [x] ++ rest.take (count - ([x] : List α).length) := by
      conv_lhs => rw [show count = (count - 1) + 1 from by omega]
      rw [List.take_succ_cons, List.singleton_append]
      simp only [List.length_singleton]
    simp only [chunkSpec, if_pos h, comps, trails, if_pos hcm, if_neg htr, ht]
    simp
  · have hcm : ¬ count - ([x] : List α).length ≤ rest.length := by
      simp only [List.length_singleton]; omega
    have htr : rest.length < count - ([x] : List α).length := by
      simp only [List.length_singleton]; omega
    simp only [chunkSpec, if_neg h, comps, trails, if_neg hcm, if_pos htr]
    simp

theorem succ_residue (step r : Nat) (hr : r < step) :
    (if (r + 1) % step = 0 then step else (r + 1) % step) = r + 1 := by
  by_cases h : r + 1 = step
  · rw [h, Nat.mod_self, if_pos rfl]
  · have hlt : r + 1 < step := by omega
    rw [Nat.mod_eq_of_lt hlt, if_neg (by omega)]

theorem succ_offset (step r : Nat) (hr : r < step) :
    (if (r + 1) % step = 0 then 0 else step - (r + 1) % step) = step - r - 1 := by
  by_cases h : r + 1 = step
  · rw [h, Nat.mod_self, if_pos rfl]; omega
  · have hlt : r + 1 < step := by omega
    rw [Nat.mod_eq_of_lt hlt, if_neg (by omega)]
    omega

theorem comps_rev_step (count : Nat) (x : α) (rest : List α) (cs : List (List α))
    (h : ∀ w ∈ cs, w.length < count) :
    comps count ((cs.map (fun c => c ++ [x])).reverse) rest =
      comps count cs.reverse (x :: rest) := by
  rw [← List.map_reverse]
  exact (comps_step count x rest cs.reverse fun w hw => h w (List.mem_reverse.mp hw)).symm

theorem comps_peel (count : Nat) (x : α) (rest wl : List α) (zs : List (List α))
    (hlen : wl.length + 1 = count) :
    comps count (wl :: zs) (x :: rest) = (wl ++ [x]) :: comps count zs (x :: rest) := by
  have h1 : count - wl.length = 1 := by omega
  rw [comps, if_pos (by simp only [List.length_cons]; omega), h1]
  rfl

theorem trails_last_full (count : Nat) (x : α) (rest wl : List α) (zs : List (List α))
    (hlen : wl.length + 1 = count) :
    trails count (zs ++ [wl]) (x :: rest) = trails count zs (x :: rest) := by
  rw [trails_append]
  have : trails count [wl] (x :: rest) = [] := by
    rw [trails, if_neg (by simp only [List.length_cons]; omega)]
    rfl
  rw [this, List.append_nil]

theorem bound_map_of_chain {count step a : Nat} {ws : List (List α)} {wl : List α}
    (hs : 0 < step) (hch : Chain step a (ws ++ [wl])) (x : α)
    (hwl : wl.length + 1 ≤ count) :
    ∀ w ∈ (ws ++ [wl]).map (fun c => c ++ [x]), w.length ≤ count := by
  intro w hw
  obtain ⟨u, hu, rfl⟩ := List.mem_map.mp hw
  simp only [List.length_append, List.length_singleton]
  rcases List.mem_append.mp hu with hu | hu
  · have := chain_lt_concat hs hch u hu
    omega
  · rw [List.mem_singleton.mp hu]; omega

end ChunkMain

section ChunkMain2

variable {α β : Type}

theorem eq_nil_or_append_single (l : List α) : l = [] ∨ ∃ t a, l = t ++ [a] := by
  rcases List.eq_nil_or_concat l with h | ⟨t, a, h⟩
  · exact Or.inl h
  · exact Or.inr ⟨t, a, by simpa using h⟩

theorem auxR_cons_eq (count step r : Nat) (cs : List (List α)) (x : α) (rest : List α)
    (zs : List (List α)) (wl : List α)
    (hzs : (if r = 0 then [] :: cs else cs).map (fun c => c ++ [x]) = zs ++ [wl]) :
    chunkEveryAuxR count step r cs (x :: rest) =
      if wl.length = count then
        wl :: chunkEveryAuxR count step ((r + 1) % step) zs rest
      else
        chunkEveryAuxR count step ((r + 1) % step) (zs ++ [wl]) rest := by
  rw [chunkEveryAuxR]
  simp only [hzs, List.getLast?_concat, List.dropLast_concat]

theorem auxR_cons_nil (count step r : Nat) (x : α) (rest : List α) (hr0 : r ≠ 0) :
    chunkEveryAuxR count step r ([] : List (List α)) (x :: rest) =
      chunkEveryAuxR count step ((r + 1) % step) [] rest := by
  rw [chunkEveryAuxR]
  simp only [if_neg hr0, List.map_nil, List.getLast?_nil]

end ChunkMain2

section ChunkMain3

variable {α β : Type}

theorem auxR_spec (count step : Nat) (hc : 0 < count) (hs : 0 < step) :
    ∀ (l : List α) (r : Nat) (cs : List (List α)), r < step → WinInv count step r cs →
      chunkEveryAuxR count step r cs l =
        comps count cs.reverse l ++
          chunkSpec count step (l.drop (if r = 0 then 0 else step - r)) ++
          trails count cs l := by
  intro l
  induction l with
  | nil =>
    rintro r cs hr ⟨hch, hb⟩
    have hbr : ∀ w ∈ cs.reverse, w.length < count := fun w hw =>
      hb w (List.mem_reverse.mp hw)
    rw [show chunkEveryAuxR count step r cs [] = cs from rfl, List.drop_nil,
      comps_nil count _ hbr, trails_nil count _ hb]
    simp [chunkSpec]
  | cons x rest ih =>
    rintro r cs hr ⟨hch, hb⟩
    have hr1 : (r + 1) % step < step := Nat.mod_lt _ hs
    by_cases hr0 : r = 0
    · subst hr0
      rw [if_pos rfl] at hch
      simp only [if_pos rfl, if_true, List.drop_zero]
      rcases eq_nil_or_append_single cs with rfl | ⟨ws, wl, rfl⟩
      · -- no window was open; the fresh window [x] is alone
        have hzs : ((if 0 = 0 then [] :: ([] : List (List α)) else []).map
            (fun c => c ++ [x])) = [] ++ [[x]] := by simp
        rw [auxR_cons_eq count step 0 [] x rest [] [x] hzs]
        by_cases hcnt : ([x] : List α).length = count
        · -- count = 1: the fresh window fills at once
          rw [if_pos hcnt]
          have h1 : count = 1 := by simpa using hcnt.symm
          subst h1
          have hinv : WinInv 1 step ((0 + 1) % step) ([] : List (List α)) :=
            ⟨Chain.nil _, fun w hw => absurd hw (List.not_mem_nil w)⟩
          rw [ih _ _ hr1 hinv, succ_offset step 0 hs]
          rw [show chunkSpec 1 step (x :: rest) =
              (x :: rest).take 1 :: chunkSpec 1 step (rest.drop (step - 1)) from by
            rw [chunkSpec, if_pos (by omega)]]
          simp [comps, trails]
        · -- the fresh window stays open
          rw [if_neg hcnt]
          have hxb : ([x] : List α).length < count := by
            simp only [List.length_singleton] at hcnt ⊢
            omega
          have hinv : WinInv count step ((0 + 1) % step) ([] ++ [[x]]) := by
            refine ⟨?_, ?_⟩
            · rw [succ_residue step 0 hs]
              exact Chain.cons _ _ _ (by simp) (Chain.nil _)
            · intro w hw
              simp only [List.nil_append, List.mem_singleton] at hw
              subst hw
              exact hxb
          rw [ih _ _ hr1 hinv, succ_offset step 0 hs]
          rw [chunkSpec_cons_split count step hc x rest]
          simp [comps, trails]
      · -- windows ws ++ [wl] open; wl is oldest
        have hbl : wl.length < count := hb wl (by simp)
        have hgel : step ≤ wl.length := chain_ge hch wl (by simp)
        have hlt := chain_lt_concat hs hch
        have hzs : ((if 0 = 0 then [] :: (ws ++ [wl]) else ws ++ [wl]).map
            (fun c => c ++ [x])) =
            ([x] :: ws.map (fun c => c ++ [x])) ++ [wl ++ [x]] := by
          simp [List.map_append]
        rw [auxR_cons_eq count step 0 (ws ++ [wl]) x rest _ _ hzs]
        by_cases hlen : (wl ++ [x]).length = count
        · -- the oldest window fills and is emitted
          rw [if_pos hlen]
          have hlen' : wl.length + 1 = count := by simpa using hlen
          have hchws : Chain step step ws := (chain_concat hch).1
          have hinv : WinInv count step ((0 + 1) % step)
              ([x] :: ws.map (fun c => c ++ [x])) := by
            refine ⟨?_, ?_⟩
            · rw [succ_residue step 0 hs]
              refine Chain.cons _ _ _ (by simp) ?_
              have h2 := chain_map_succ x hchws
              rwa [Nat.add_comm step 1] at h2
            · intro w hw
              rcases List.mem_cons.mp hw with rfl | hw
              · simp only [List.length_singleton]; omega
              · obtain ⟨u, hu, rfl⟩ := List.mem_map.mp hw
                have := hlt u hu
                simp only [List.length_append, List.length_singleton]
                omega
          rw [ih _ _ hr1 hinv, succ_offset step 0 hs]
          rw [List.reverse_cons, comps_append,
            comps_rev_step count x rest ws (fun u hu => lt_trans (hlt u hu) hbl)]
          rw [show ([x] :: ws.map (fun c => c ++ [x])) =
              [[x]] ++ ws.map (fun c => c ++ [x]) from rfl, trails_append,
            ← trails_step count x rest ws]
          rw [List.reverse_append, List.reverse_singleton, List.singleton_append,
            comps_peel count x rest wl ws.reverse hlen',
            trails_last_full count x rest wl ws hlen',
            chunkSpec_cons_split count step hc x rest]
          simp [List.append_assoc]
        · -- the oldest window stays open
          rw [if_neg hlen]
          have hlen' : wl.length + 1 ≠ count := by simpa using hlen
          have hre : (([x] : List α) :: ws.map (fun c => c ++ [x])) ++ [wl ++ [x]] =
              [x] :: (ws ++ [wl]).map (fun c => c ++ [x]) := by
            simp [List.map_append]
          have hinv : WinInv count step ((0 + 1) % step)
              (([x] :: ws.map (fun c => c ++ [x])) ++ [wl ++ [x]]) := by
            rw [hre]
            refine ⟨?_, ?_⟩
            · rw [succ_residue step 0 hs]
              refine Chain.cons _ _ _ (by simp) ?_
              have h2 := chain_map_succ x hch
              rwa [Nat.add_comm step 1] at h2
            · intro w hw
              rcases List.mem_cons.mp hw with rfl | hw
              · simp only [List.length_singleton]; omega
              · obtain ⟨u, hu, rfl⟩ := List.mem_map.mp hw
                simp only [List.length_append, List.length_singleton]
                rcases List.mem_append.mp hu with hu | hu
                · have := hlt u hu; omega
                · rw [List.mem_singleton.mp hu]; omega
          rw [ih _ _ hr1 hinv, succ_offset step 0 hs, hre]
          rw [List.reverse_cons, comps_append,
            comps_rev_step count x rest (ws ++ [wl]) hb]
          rw [show ([x] :: (ws ++ [wl]).map (fun c => c ++ [x])) =
              [[x]] ++ (ws ++ [wl]).map (fun c => c ++ [x]) from rfl, trails_append,
            ← trails_step count x rest (ws ++ [wl]),
            chunkSpec_cons_split count step hc x rest]
          simp [List.append_assoc]
    · -- r ≠ 0: no window opens on this element
      rw [if_neg hr0] at hch
      simp only [if_neg hr0]
      have hdrop : (x :: rest).drop (step - r) = rest.drop (step - r - 1) := by
        conv_lhs => rw [show step - r = (step - r - 1) + 1 from by omega]
        rw [List.drop_succ_cons]
      rcases eq_nil_or_append_single cs with rfl | ⟨ws, wl, rfl⟩
      · rw [auxR_cons_nil count step r x rest hr0]
        have hinv : WinInv count step ((r + 1) % step) ([] : List (List α)) :=
          ⟨Chain.nil _, fun w hw => absurd hw (List.not_mem_nil w)⟩
        rw [ih _ _ hr1 hinv, succ_offset step r hr]
        simp [comps, trails, hdrop]
      · have hbl : wl.length < count := hb wl (by simp)
        have hgel : r ≤ wl.length := chain_ge hch wl (by simp)
        have hlt := chain_lt_concat hs hch
        have hzs : ((if r = 0 then [] :: (ws ++ [wl]) else ws ++ [wl]).map
            (fun c => c ++ [x])) = ws.map (fun c => c ++ [x]) ++ [wl ++ [x]] := by
          rw [if_neg hr0, List.map_append]
          rfl
        rw [auxR_cons_eq count step r (ws ++ [wl]) x rest _ _ hzs]
        by_cases hlen : (wl ++ [x]).length = count
        · rw [if_pos hlen]
          have hlen' : wl.length + 1 = count := by simpa using hlen
          have hchws : Chain step r ws := (chain_concat hch).1
          have hinv : WinInv count step ((r + 1) % step)
              (ws.map (fun c => c ++ [x])) := by
            refine ⟨?_, ?_⟩
            · rw [succ_residue step r hr]
              exact chain_map_succ x hchws
            · intro w hw
              obtain ⟨u, hu, rfl⟩ := List.mem_map.mp hw
              have := hlt u hu
              simp only [List.length_append, List.length_singleton]
              omega
          rw [ih _ _ hr1 hinv, succ_offset step r hr]
          rw [comps_rev_step count x rest ws (fun u hu => lt_trans (hlt u hu) hbl),
            ← trails_step count x rest ws]
          rw [List.reverse_append, List.reverse_singleton, List.singleton_append,
            comps_peel count x rest wl ws.reverse hlen',
            trails_last_full count x rest wl ws hlen', hdrop]
          simp [List.append_assoc]
        · rw [if_neg hlen]
          have hlen' : wl.length + 1 ≠ count := by simpa using hlen
          have hre : ws.map (fun c => c ++ [x]) ++ [wl ++ [x]] =
              (ws ++ [wl]).map (fun c => c ++ [x]) := by
            simp [List.map_append]
          have hinv : WinInv count step ((r + 1) % step)
              (ws.map (fun c => c ++ [x]) ++ [wl ++ [x]]) := by
            rw [hre]
            refine ⟨?_, ?_⟩
            · rw [succ_residue step r hr]
              exact chain_map_succ x hch
            · intro w hw
              obtain ⟨u, hu, rfl⟩ := List.mem_map.mp hw
              simp only [List.length_append, List.length_singleton]
              rcases List.mem_append.mp hu with hu | hu
              · have := hlt u hu; omega
              · rw [List.mem_singleton.mp hu]; omega
          rw [ih _ _ hr1 hinv, succ_offset step r hr, hre]
          rw [comps_rev_step count x rest (ws ++ [wl]) hb,
            ← trails_step count x rest (ws ++ [wl]), hdrop]

end ChunkMain3

section ChunkClosedForm

variable {α β : Type}

theorem chunkEvery_eq_chunkSpec (count step : Nat) (hc : 0 < count) (hs : 0 < step)
    (l : List α) : Streams.chunkEvery l count step = chunkSpec count step l := by
  rw [Streams.chunkEvery, auxR_bridge count step hs l 0 [], Nat.zero_mod,
    auxR_spec count step hc hs l 0 []
      hs ⟨Chain.nil _, fun w hw => absurd hw (List.not_mem_nil w)⟩]
  simp [comps, trails]

theorem drop_pred_cons (x : α) (xs : List α) (step : Nat) (hs : 0 < step) :
    xs.drop (step - 1) = (x :: xs).drop step := by
  conv_rhs => rw [show step = (step - 1) + 1 from by omega, List.drop_succ_cons]

theorem windowStarts_nil (step : Nat) (hs : 0 < step) :
    windowStarts ([] : List α) step = [] := by
  unfold windowStarts
  rw [List.length_nil, Nat.zero_add, Nat.div_eq_of_lt (by omega)]
  rfl

theorem range_mul_shift (n step : Nat) :
    (List.range (n + 1)).map (· * step) =
      0 :: (List.range n).map (fun k => k * step + step) := by
  induction n with
  | zero => simp [List.range_succ]
  | succ n ih =>
    rw [List.range_succ, List.map_append, ih, List.range_succ, List.map_append]
    simp [Nat.succ_mul]

theorem windowStarts_cons (x : α) (xs : List α) (step : Nat) (hs : 0 < step) :
    windowStarts (x :: xs) step =
      0 :: (windowStarts ((x :: xs).drop step) step).map (· + step) := by
  unfold windowStarts
  have hoc : ((x :: xs).length + step - 1) / step =
      (((x :: xs).drop step).length + step - 1) / step + 1 := by
    rw [List.length_drop, List.length_cons]
    by_cases h : step ≤ xs.length + 1
    · rw [show xs.length + 1 + step - 1 = (xs.length + 1 - step + step - 1) + step from by
        omega, Nat.add_div_right _ hs]
    · rw [show xs.length + 1 - step = 0 from by omega]
      rw [show xs.length + 1 + step - 1 = xs.length + step from by omega,
        Nat.add_div_right _ hs, Nat.div_eq_of_lt (by omega), Nat.div_eq_of_lt (by omega)]
  rw [hoc, range_mul_shift]
  congr 1
  rw [List.map_map]
  rfl

theorem filter_map_add (step : Nat) (p : Nat → Bool) (m : List Nat) :
    (m.map (· + step)).filter p = (m.filter (fun s => p (s + step))).map (· + step) := by
  induction m with
  | nil => rfl
  | cons a t ih =>
    simp only [List.map_cons, List.filter_cons]
    by_cases h : p (a + step) = true
    · rw [if_pos h, if_pos h, List.map_cons, ih]
    · rw [if_neg h, if_neg h, ih]

theorem theWindow_shift (l : List α) (count s step : Nat) :
    theWindow l count (s + step) = theWindow (l.drop step) count s := by
  unfold theWindow
  rw [List.drop_drop, Nat.add_comm step s]

theorem fullWindows_cons (x : α) (xs : List α) (count step : Nat)
    (hc : 0 < count) (hs : 0 < step) :
    fullWindows (x :: xs) count step =
      (if count ≤ (x :: xs).length then [(x :: xs).take count] else []) ++
        fullWindows ((x :: xs).drop step) count step := by
  unfold fullWindows
  rw [windowStarts_cons x xs step hs, List.filter_cons, filter_map_add]
  have hshift : ∀ s ∈ (windowStarts ((x :: xs).drop step) step),
      (decide (s + step + count ≤ (x :: xs).length) : Bool)
        = decide (s + count ≤ ((x :: xs).drop step).length) := by
    intro s _
    rw [decide_eq_decide, List.length_drop, List.length_cons]
    omega
  rw [List.filter_congr hshift]
  by_cases hfull : count ≤ (x :: xs).length
  · rw [if_pos (by rw [decide_eq_true_eq]; omega), if_pos hfull, List.map_cons]
    rw [show theWindow (x :: xs) count 0 = (x :: xs).take count from by
      unfold theWindow; rw [List.drop_zero]]
    rw [List.map_map, List.singleton_append]
    congr 1
    refine List.map_congr_left fun s _ => ?_
    exact theWindow_shift (x :: xs) count s step
  · rw [if_neg (by rw [decide_eq_true_eq]; omega), if_neg hfull, List.nil_append]
    rw [List.map_map]
    refine List.map_congr_left fun s _ => ?_
    exact theWindow_shift (x :: xs) count s step

theorem underfullWindows_cons (x : α) (xs : List α) (count step : Nat)
    (hc : 0 < count) (hs : 0 < step) :
    underfullWindows (x :: xs) count step =
      (if count ≤ (x :: xs).length then [] else [(x :: xs).take count]) ++
        underfullWindows ((x :: xs).drop step) count step := by
  unfold underfullWindows
  rw [windowStarts_cons x xs step hs, List.filter_cons, filter_map_add]
  have hshift : ∀ s ∈ (windowStarts ((x :: xs).drop step) step),
      (decide ((x :: xs).length < s + step + count) : Bool)
        = decide (((x :: xs).drop step).length < s + count) := by
    intro s _
    rw [decide_eq_decide, List.length_drop, List.length_cons]
    omega
  rw [List.filter_congr hshift]
  by_cases hfull : count ≤ (x :: xs).length
  · rw [if_neg (by rw [decide_eq_true_eq]; omega), if_pos hfull, List.nil_append]
    rw [List.map_map]
    refine List.map_congr_left fun s _ => ?_
    exact theWindow_shift (x :: xs) count s step
  · rw [if_pos (by rw [decide_eq_true_eq]; omega), if_neg hfull, List.map_cons]
    rw [show theWindow (x :: xs) count 0 = (x :: xs).take count from by
      unfold theWindow; rw [List.drop_zero]]
    rw [List.map_map, List.singleton_append]
    congr 1
    refine List.map_congr_left fun s _ => ?_
    exact theWindow_shift (x :: xs) count s step

theorem chunkSpec_decomp_aux (count step : Nat) (hc : 0 < count) (hs : 0 < step) :
    ∀ (n : Nat) (l : List α), l.length ≤ n →
      chunkSpec count step l =
        fullWindows l count step ++ (underfullWindows l count step).reverse := by
  intro n
  induction n with
  | zero =>
    intro l hl
    rw [List.length_eq_zero.mp (Nat.le_zero.mp hl)]
    rw [show chunkSpec count step ([] : List α) = [] from by rw [chunkSpec]]
    unfold fullWindows underfullWindows
    rw [windowStarts_nil step hs]
    rfl
  | succ n ih =>
    intro l hl
    rcases l with _ | ⟨x, xs⟩
    · rw [show chunkSpec count step ([] : List α) = [] from by rw [chunkSpec]]
      unfold fullWindows underfullWindows
      rw [windowStarts_nil step hs]
      rfl
    · rw [fullWindows_cons x xs count step hc hs, underfullWindows_cons x xs count step hc hs]
      have hlen : ((x :: xs).drop step).length ≤ n := by
        rw [List.length_drop, List.length_cons]
        simp only [List.length_cons] at hl
        omega
      have hrec := ih ((x :: xs).drop step) hlen
      by_cases hfull : count ≤ (x :: xs).length
      · rw [if_pos hfull, if_pos hfull]
        rw [show chunkSpec count step (x :: xs) =
            (x :: xs).take count :: chunkSpec count step (xs.drop (step - 1)) from by
          rw [chunkSpec]
          rw [if_pos (by simpa using hfull)]]
        rw [drop_pred_cons x xs step hs, hrec]
        simp [List.append_assoc]
      · rw [if_neg hfull, if_neg hfull]
        rw [show chunkSpec count step (x :: xs) =
            chunkSpec count step (xs.drop (step - 1)) ++ [x :: xs] from by
          rw [chunkSpec]
          rw [if_neg (by simpa using hfull)]]
        rw [drop_pred_cons x xs step hs, hrec]
        rw [List.take_of_length_le (by simp only [List.length_cons] at hfull ⊢; omega)]
        simp [List.append_assoc, List.reverse_append]

theorem chunkSpec_decomp (count step : Nat) (hc : 0 < count) (hs : 0 < step)
    (l : List α) :
    chunkSpec count step l =
      fullWindows l count step ++ (underfullWindows l count step).reverse :=
  chunkSpec_decomp_aux count step hc hs l.length l (Nat.le_refl _)

end ChunkClosedForm

section ChunkCorollaries

variable {α β : Type}

theorem underfullWindows_length_lt (l : List α) (count step : Nat) (hc : 0 < count) :
    ∀ c ∈ underfullWindows l count step, c.length < count := by
  intro c hcmem
  unfold underfullWindows at hcmem
  obtain ⟨s, hsmem, rfl⟩ := List.mem_map.mp hcmem
  obtain ⟨-, hcond⟩ := List.mem_filter.mp hsmem
  have hlt : l.length < s + count := of_decide_eq_true hcond
  unfold theWindow
  rw [List.length_take, List.length_drop]
  omega

theorem chunkSpec_mem_aux (count step : Nat) (_hc : 0 < count) (hs : 0 < step)
    (hsc : step ≤ count) :
    ∀ (n : Nat) (l : List α), l.length ≤ n → ∀ y ∈ l,
      ∃ c ∈ chunkSpec count step l, y ∈ c := by
  intro n
  induction n with
  | zero =>
    intro l hl y hy
    rw [List.length_eq_zero.mp (Nat.le_zero.mp hl)] at hy
    cases hy
  | succ n ih =>
    intro l hl y hy
    rcases l with _ | ⟨x, xs⟩
    · cases hy
    · have hsplit : y ∈ (x :: xs).take count ∨ y ∈ (x :: xs).drop step := by
        have hy2 : y ∈ (x :: xs).take count ++ (x :: xs).drop count := by
          rw [List.take_append_drop]
          exact hy
        rcases List.mem_append.mp hy2 with h | h
        · exact Or.inl h
        · right
          have hd : (x :: xs).drop count = ((x :: xs).drop step).drop (count - step) := by
            rw [List.drop_drop]
            congr 1
            omega
          rw [hd] at h
          exact (List.drop_sublist _ _).subset h
      have hlen : ((x :: xs).drop step).length ≤ n := by
        rw [List.length_drop, List.length_cons]
        simp only [List.length_cons] at hl
        omega
      by_cases hfull : count ≤ (x :: xs).length
      · rw [show chunkSpec count step (x :: xs) =
            (x :: xs).take count :: chunkSpec count step (xs.drop (step - 1)) from by
          rw [chunkSpec]
          rw [if_pos (by simpa using hfull)]]
        rw [drop_pred_cons x xs step hs]
        rcases hsplit with h | h
        · exact ⟨(x :: xs).take count, List.mem_cons_self _ _, h⟩
        · obtain ⟨c, hc1, hc2⟩ := ih ((x :: xs).drop step) hlen y h
          exact ⟨c, List.mem_cons_of_mem _ hc1, hc2⟩
      · rw [show chunkSpec count step (x :: xs) =
            chunkSpec count step (xs.drop (step - 1)) ++ [x :: xs] from by
          rw [chunkSpec]
          rw [if_neg (by simpa using hfull)]]
        exact ⟨x :: xs, List.mem_append.mpr (Or.inr (List.mem_singleton.mpr rfl)), hy⟩

theorem chunkSpec_flatten_aux (count : Nat) (hc : 0 < count) :
    ∀ (n : Nat) (l : List α), l.length ≤ n → (chunkSpec count count l).flatten = l := by
  intro n
  induction n with
  | zero =>
    intro l hl
    rw [List.length_eq_zero.mp (Nat.le_zero.mp hl)]
    rw [show chunkSpec count count ([] : List α) = [] from by rw [chunkSpec]]
    rfl
  | succ n ih =>
    intro l hl
    rcases l with _ | ⟨x, xs⟩
    · rw [show chunkSpec count count ([] : List α) = [] from by rw [chunkSpec]]
      rfl
    · have hlen : ((x :: xs).drop count).length ≤ n := by
        rw [List.length_drop, List.length_cons]
        simp only [List.length_cons] at hl
        omega
      by_cases hfull : count ≤ (x :: xs).length
      · rw [show chunkSpec count count (x :: xs) =
            (x :: xs).take count :: chunkSpec count count (xs.drop (count - 1)) from by
          rw [chunkSpec]
          rw [if_pos (by simpa using hfull)]]
        rw [drop_pred_cons x xs count hc]
        rw [List.flatten_cons, ih ((x :: xs).drop count) hlen, List.take_append_drop]
      · rw [show chunkSpec count count (x :: xs) =
            chunkSpec count count (xs.drop (count - 1)) ++ [x :: xs] from by
          rw [chunkSpec]
          rw [if_neg (by simpa using hfull)]]
        rw [drop_pred_cons x xs count hc]
        rw [show (x :: xs).drop count = [] from
          List.drop_eq_nil_of_le (by simp only [List.length_cons] at hfull ⊢; omega)]
        rw [show chunkSpec count count ([] : List α) = [] from by rw [chunkSpec]]
        simp

theorem chunkSpec_dropLast_len_aux (count : Nat) (hc : 0 < count) :
    ∀ (n : Nat) (l : List α), l.length ≤ n →
      ∀ c ∈ (chunkSpec count count l).dropLast, c.length = count := by
  intro n
  induction n with
  | zero =>
    intro l hl c hcmem
    rw [List.length_eq_zero.mp (Nat.le_zero.mp hl)] at hcmem
    rw [show chunkSpec count count ([] : List α) = [] from by rw [chunkSpec]] at hcmem
    cases hcmem
  | succ n ih =>
    intro l hl c hcmem
    rcases l with _ | ⟨x, xs⟩
    · rw [show chunkSpec count count ([] : List α) = [] from by rw [chunkSpec]] at hcmem
      cases hcmem
    · have hlen : ((x :: xs).drop count).length ≤ n := by
        rw [List.length_drop, List.length_cons]
        simp only [List.length_cons] at hl
        omega
      by_cases hfull : count ≤ (x :: xs).length
      · rw [show chunkSpec count count (x :: xs) =
            (x :: xs).take count :: chunkSpec count count (xs.drop (count - 1)) from by
          rw [chunkSpec]
          rw [if_pos (by simpa using hfull)], drop_pred_cons x xs count hc] at hcmem
        rcases hrec : chunkSpec count count ((x :: xs).drop count) with _ | ⟨a, t⟩
        · rw [hrec] at hcmem
          cases hcmem
        · rw [hrec] at hcmem
          rw [show ((x :: xs).take count :: a :: t).dropLast =
              (x :: xs).take count :: (a :: t).dropLast from rfl] at hcmem
          rcases List.mem_cons.mp hcmem with rfl | hcmem
          · rw [List.length_take]
            omega
          · have := ih ((x :: xs).drop count) hlen c
            rw [hrec] at this
            exact this hcmem
      · rw [show chunkSpec count count (x :: xs) =
            chunkSpec count count (xs.drop (count - 1)) ++ [x :: xs] from by
          rw [chunkSpec]
          rw [if_neg (by simpa using hfull)], drop_pred_cons x xs count hc,
          show (x :: xs).drop count = [] from
            List.drop_eq_nil_of_le (by simp only [List.length_cons] at hfull ⊢; omega),
          show chunkSpec count count ([] : List α) = [] from by rw [chunkSpec]] at hcmem
        simp at hcmem

theorem chunkSpec_len_le_aux (count : Nat) (hc : 0 < count) :
    ∀ (n : Nat) (l : List α), l.length ≤ n →
      ∀ c ∈ chunkSpec count count l, c.length ≤ count := by
  intro n
  induction n with
  | zero =>
    intro l hl c hcmem
    rw [List.length_eq_zero.mp (Nat.le_zero.mp hl)] at hcmem
    rw [show chunkSpec count count ([] : List α) = [] from by rw [chunkSpec]] at hcmem
    cases hcmem
  | succ n ih =>
    intro l hl c hcmem
    rcases l with _ | ⟨x, xs⟩
    · rw [show chunkSpec count count ([] : List α) = [] from by rw [chunkSpec]] at hcmem
      cases hcmem
    · have hlen : ((x :: xs).drop count).length ≤ n := by
        rw [List.length_drop, List.length_cons]
        simp only [List.length_cons] at hl
        omega
      by_cases hfull : count ≤ (x :: xs).length
      · rw [show chunkSpec count count (x :: xs) =
            (x :: xs).take count :: chunkSpec count count (xs.drop (count - 1)) from by
          rw [chunkSpec]
          rw [if_pos (by simpa using hfull)], drop_pred_cons x xs count hc] at hcmem
        rcases List.mem_cons.mp hcmem with rfl | hcmem
        · rw [List.length_take]
          omega
        · exact ih ((x :: xs).drop count) hlen c hcmem
      · rw [show chunkSpec count count (x :: xs) =
            chunkSpec count count (xs.drop (count - 1)) ++ [x :: xs] from by
          rw [chunkSpec]
          rw [if_neg (by simpa using hfull)], drop_pred_cons x xs count hc,
          show (x :: xs).drop count = [] from
            List.drop_eq_nil_of_le (by simp only [List.length_cons] at hfull ⊢; omega),
          show chunkSpec count count ([] : List α) = [] from by rw [chunkSpec]] at hcmem
        simp only [List.nil_append, List.mem_singleton] at hcmem
        subst hcmem
        simp only [List.length_cons] at hfull ⊢
        omega

end ChunkCorollaries

/-!
### Bridges for `take`, `drop`, `dedup`, `reduce`
-/

section Bridges

variable {α β : Type}

theorem takeAux_eq (n : Nat) : ∀ (l : List α) (c : Nat),
    Streams.takeAux n c l = l.take (n - c) := by
  intro l
  induction l with
  | nil => intro c; simp [Streams.takeAux]
  | cons x xs ih =>
    intro c
    rw [Streams.takeAux]
    by_cases h : n ≤ c
    · rw [if_pos h, show n - c = 0 from by omega, List.take_zero]
    · rw [if_neg h, ih (c + 1)]
      conv_rhs => rw [show n - c = (n - (c + 1)) + 1 from by omega]
      rw [List.take_succ_cons]

theorem take_eq_take (l : List α) (n : Nat) : Streams.take l n = l.take n := by
  rw [Streams.take, takeAux_eq n l 0, Nat.sub_zero]

theorem takePullsAux_eq (n : Nat) : ∀ (l : List α) (c : Nat),
    Streams.takePullsAux n c l = min (n - c + 1) l.length := by
  intro l
  induction l with
  | nil => intro c; simp [Streams.takePullsAux]
  | cons x xs ih =>
    intro c
    rw [Streams.takePullsAux]
    by_cases h : n ≤ c
    · rw [if_pos h, List.length_cons]
      omega
    · rw [if_neg h, ih (c + 1), List.length_cons]
      omega

theorem takePulls_eq_min (l : List α) (n : Nat) :
    Streams.takePulls l n = min (n + 1) l.length := by
  rw [Streams.takePulls, takePullsAux_eq n l 0, Nat.sub_zero]

theorem dropAux_eq (n : Nat) : ∀ (l : List α) (c : Nat),
    Streams.dropAux n c l = l.drop (n - c) := by
  intro l
  induction l with
  | nil => intro c; simp [Streams.dropAux]
  | cons x xs ih =>
    intro c
    rw [Streams.dropAux]
    by_cases h : n ≤ c
    · rw [if_pos h, ih (c + 1), show n - c = 0 from by omega,
        show n - (c + 1) = 0 from by omega, List.drop_zero, List.drop_zero]
    · rw [if_neg h, ih (c + 1)]
      conv_rhs => rw [show n - c = (n - (c + 1)) + 1 from by omega]
      rw [List.drop_succ_cons]

theorem drop_eq_drop (l : List α) (n : Nat) : Streams.drop l n = l.drop n := by
  rw [Streams.drop, dropAux_eq n l 0, Nat.sub_zero]

theorem dedupAux_some [DecidableEq β] (f : α → β) : ∀ (l : List α) (b : β),
    Streams.dedupAux (fun a => some (f a)) (some b) l = dedupSpecAux f b l := by
  intro l
  induction l with
  | nil => intro b; rfl
  | cons x xs ih =>
    intro b
    rw [Streams.dedupAux, dedupSpecAux]
    by_cases h : f x = b
    · rw [if_neg (by simp [h]), if_pos h, ih]
    · rw [if_pos (by simp [h]), if_neg h, ih]

theorem reduceAux_some (g : Option β → Option β → Option β) (f : β → β → β)
    (h : ∀ a b, g (some a) (some b) = some (f a b)) :
    ∀ (xs : List β) (a : β),
      Streams.reduceAux g (some a) (xs.map some) = some (xs.foldl f a) := by
  intro xs
  induction xs with
  | nil => intro a; rfl
  | cons y ys ih =>
    intro a
    rw [List.map_cons, Streams.reduceAux]
    show Streams.reduceAux g (g (some a) (some y)) (ys.map some) =
      some ((y :: ys).foldl f a)
    rw [h, List.foldl_cons, ih]

end Bridges

/-!
### Claim theorems
-/

section Claims

variable {α β : Type}

/-- C1 (counterexample): the claim predicts trailing partial chunks in
oldest-opened-first order, i.e. output `fullWindows ++ underfullWindows`
(under-filled windows in opening order).  On `chunkEvery([1,2,3], 3, 1)` the
code emits the full window `[1,2,3]` and then drains the still-open windows
newest-opened first — `[3]` (opened at index 2) before `[2,3]` (opened at
index 1) — which differs from the oldest-first prediction. -/
theorem chunkEvery_trailing_oldest_first_cex :
    Streams.chunkEvery ([1, 2, 3] : List Nat) 3 1 = [[1, 2, 3], [3], [2, 3]]
      ∧ fullWindows ([1, 2, 3] : List Nat) 3 1 ++ underfullWindows ([1, 2, 3] : List Nat) 3 1
          = [[1, 2, 3], [2, 3], [3]]
      ∧ ([[1, 2, 3], [3], [2, 3]] : List (List Nat)) ≠ [[1, 2, 3], [2, 3], [3]] := by
  refine ⟨by decide, by decide, by decide⟩

/-- C1 (amended): for positive `count` and `step`, on exhaustion `chunkEvery`
emits every window that reached `count` elements, in opening order, followed
by every still-open under-filled window in *newest*-opened-first (reverse
opening) order; every under-filled window holds fewer than `count` elements;
and when `step ≤ count` no input element is dropped — every element appears
in some emitted chunk. -/
theorem chunkEvery_trailing_newest_first (l : List α) (count step : Nat)
    (hc : 0 < count) (hs : 0 < step) :
    Streams.chunkEvery l count step =
        fullWindows l count step ++ (underfullWindows l count step).reverse
      ∧ (∀ c ∈ underfullWindows l count step, c.length < count)
      ∧ (step ≤ count → ∀ y ∈ l, ∃ c ∈ Streams.chunkEvery l count step, y ∈ c) := by
  have he := chunkEvery_eq_chunkSpec count step hc hs l
  refine ⟨?_, underfullWindows_length_lt l count step hc, ?_⟩
  · rw [he]
    exact chunkSpec_decomp count step hc hs l
  · intro hsc y hy
    rw [he]
    exact chunkSpec_mem_aux count step hc hs hsc l.length l (Nat.le_refl _) y hy

/-- C1 (witness): the amended statement evaluated at `chunkEvery([1,2,3], 3, 1)`. -/
theorem chunkEvery_trailing_newest_first_witness :
    Streams.chunkEvery ([1, 2, 3] : List Nat) 3 1 =
        fullWindows ([1, 2, 3] : List Nat) 3 1 ++
          (underfullWindows ([1, 2, 3] : List Nat) 3 1).reverse
      ∧ (∀ c ∈ underfullWindows ([1, 2, 3] : List Nat) 3 1, c.length < 3)
      ∧ (1 ≤ 3 → ∀ y ∈ ([1, 2, 3] : List Nat),
          ∃ c ∈ Streams.chunkEvery ([1, 2, 3] : List Nat) 3 1, y ∈ c) :=
  chunkEvery_trailing_newest_first [1, 2, 3] 3 1 (by decide) (by decide)

/-- C2 (code bug): `dropEvery([1,2,3,4,5,6], 3)` should be `[2,3,5,6]` (drop
the 1st, 4th, … elements).  lists.js instead keeps the 1st element and drops
the 3rd, 6th, … (`++count % n === 0`), yielding `[1,2,4,5]`; streams.ts
builds the correct expression `concat(map(chunkEvery(seq, n), it => drop(it,
1)))` — whose value is `[2,3,5,6]` — but `return`s it from a generator
instead of yielding, so the generator emits nothing at all. -/
theorem dropEvery_divergence :
    Lists.dropEvery ([1, 2, 3, 4, 5, 6] : List Nat) 3 = [1, 2, 4, 5]
      ∧ Streams.dropEvery ([1, 2, 3, 4, 5, 6] : List Nat) 3 = []
      ∧ Streams.dropEveryReturned ([1, 2, 3, 4, 5, 6] : List Nat) 3 = [2, 3, 5, 6]
      ∧ ([1, 2, 4, 5] : List Nat) ≠ [2, 3, 5, 6] := by
  refine ⟨by decide, rfl, by decide, by decide⟩

/-- C3 (code bug): `maxBy`'s reducer keeps `a` when `sorter(fun(a), fun(b))`
is truthy — the body is identical to `minBy`'s — so with the default `a <= b`
comparator `maxBy([1,2], x => x)` returns `1`, the *minimum*, while
`max([1,2])` returns `2`; `maxBy` does not return a maximal element. -/
theorem maxBy_returns_minimum :
    Streams.maxBy [some 1, some 2] (fun v => v) Streams.jsLe = some 1
      ∧ Streams.max [some 1, some 2] Streams.jsLe = some 2
      ∧ (some (1 : Int)) ≠ some 2 := by
  refine ⟨by decide, by decide, by decide⟩

/-- C4 (counterexample): `dedup` initialises `lastValue` to `undefined`, so a
first element whose key is `undefined` compares equal to the sentinel and is
*not* emitted: `dedup([0], _ => undefined)` emits `[]`, not `[0]` — the
first element of a non-empty sequence is dropped. -/
theorem dedup_undefined_first_key_cex :
    Streams.dedup [(0 : Nat)] (fun _ => (none : Option Nat)) = []
      ∧ ([] : List Nat) ≠ [0] := by
  refine ⟨rfl, by decide⟩

/-- C4 (amended): provided the key function never returns `undefined`,
`dedup` behaves exactly as claimed: the first element is always emitted
(`dedupSpec` emits the head unconditionally), and afterwards an element is
emitted exactly when its key differs from the key of the immediately
preceding emitted element (`dedupSpecAux` tracks the last *emitted* key). -/
theorem dedup_defined_keys [DecidableEq β] (f : α → β) (l : List α) :
    Streams.dedup l (fun a => some (f a)) = dedupSpec f l := by
  cases l with
  | nil => rfl
  | cons x xs =>
    rw [Streams.dedup, Streams.dedupAux, dedupSpec]
    rw [if_pos (by simp)]
    rw [dedupAux_some]

/-- C5 (counterexample): `reduce` re-seeds the accumulator from the next
element whenever the accumulator is `undefined`, so for
`f = (_, _) => undefined` on `[1,2,3]` the code returns `3` while the
claimed left fold `f(f(1,2),3)` is `undefined`. -/
theorem reduce_reseed_cex :
    Streams.reduce [some 1, some 2, some 3] (fun _ _ => (none : Option Int)) none
        = some 3
      ∧ List.foldl (fun _ _ => (none : Option Int)) (some 1) [some 2, some 3] = none
      ∧ some (3 : Int) ≠ none := by
  refine ⟨rfl, rfl, by decide⟩

/-- C5 (amended): provided the elements are defined and the folding function
never returns `undefined` (`g` agrees with a total `f` on defined values),
`reduce(seq, f)` with the initial accumulator omitted is the left fold of
`f` over the tail seeded with the head. -/
theorem reduce_head_seeds (g : Option β → Option β → Option β) (f : β → β → β)
    (x : β) (xs : List β) (h : ∀ a b, g (some a) (some b) = some (f a b)) :
    Streams.reduce ((x :: xs).map some) g none = some (xs.foldl f x) := by
  rw [Streams.reduce, List.map_cons, Streams.reduceAux]
  show Streams.reduceAux g (some x) (xs.map some) = some (xs.foldl f x)
  exact reduceAux_some g f h xs x

/-- C5 (witness): the amended statement at `reduce([1,2,3], (a,b) => a+b)`. -/
theorem reduce_head_seeds_witness :
    Streams.reduce ([(1 : Int), 2, 3].map some)
        (fun a b => Option.map₂ (fun u v => u + v) a b) none = some 6 :=
  (reduce_head_seeds (fun a b => Option.map₂ (fun u v => u + v) a b)
    (fun u v => u + v) 1 [2, 3] (fun a b => rfl)).trans (by decide)

/-- C6 (code bug): no operator validates its arguments — the sources contain
no `throw` at all.  `chunkEvery(seq, 2, 0)` silently emits nothing (JS
`i % 0` is `NaN`, so no window ever opens and every element is dropped);
`take(seq, 0)` and `dropEvery(seq, 0)` likewise silently produce degenerate
output instead of the InvalidArgument rejection the claim requires. -/
theorem no_argument_validation :
    Streams.chunkEvery ([1, 2, 3] : List Nat) 2 0 = []
      ∧ Streams.take ([1, 2, 3] : List Nat) 0 = []
      ∧ Lists.dropEvery ([1, 2, 3] : List Nat) 0 = [1, 2, 3] := by
  refine ⟨by decide, by decide, by decide⟩

/-- C7 (counterexample): draining `take([1,2,3], 2)` pulls 3 elements from
the upstream source: the loop pulls a third element before observing
`count++ >= n` and breaking, so `take` *does* request more than `n`
elements. -/
theorem take_overpull_cex :
    Streams.takePulls ([1, 2, 3] : List Nat) 2 = 3 ∧ ¬(3 ≤ 2) := by
  refine ⟨by decide, by decide⟩

/-- C7 (amended): `take(seq, n)` emits exactly the first `n` elements (all of
them when the source is shorter), and a drained `take` pulls
`min(n + 1, length)` elements from its source — at most one more than `n`,
the extra pull being the one that detects the limit. -/
theorem take_emits_first_n (l : List α) (n : Nat) :
    Streams.take l n = l.take n
      ∧ Streams.takePulls l n = min (n + 1) l.length :=
  ⟨take_eq_take l n, takePulls_eq_min l n⟩

/-- C8: concatenating the emissions of `take(S, n)` and `drop(S, n)`
reproduces `S` exactly, element for element. -/
theorem take_append_drop_reproduces (l : List α) (n : Nat) :
    Streams.take l n ++ Streams.drop l n = l := by
  rw [take_eq_take, drop_eq_drop, List.take_append_drop]

/-- C9: for positive `count`, the non-overlapping tiling
`chunkEvery(S, count, count)` reconstructs `S` when its chunks are
concatenated; every chunk but the last has exactly `count` elements and no
chunk exceeds `count`. -/
theorem chunkEvery_tiling (l : List α) (count : Nat) (hc : 0 < count) :
    (Streams.chunkEvery l count count).flatten = l
      ∧ (∀ c ∈ (Streams.chunkEvery l count count).dropLast, c.length = count)
      ∧ (∀ c ∈ Streams.chunkEvery l count count, c.length ≤ count) := by
  have he := chunkEvery_eq_chunkSpec count count hc hc l
  rw [he]
  exact ⟨chunkSpec_flatten_aux count hc l.length l (Nat.le_refl _),
    chunkSpec_dropLast_len_aux count hc l.length l (Nat.le_refl _),
    chunkSpec_len_le_aux count hc l.length l (Nat.le_refl _)⟩

/-- C9 (witness): the tiling statement at `chunkEvery([1,2,3], 2, 2)`. -/
theorem chunkEvery_tiling_witness :
    (Streams.chunkEvery ([1, 2, 3] : List Nat) 2 2).flatten = [1, 2, 3]
      ∧ (∀ c ∈ (Streams.chunkEvery ([1, 2, 3] : List Nat) 2 2).dropLast, c.length = 2)
      ∧ (∀ c ∈ Streams.chunkEvery ([1, 2, 3] : List Nat) 2 2, c.length ≤ 2) :=
  chunkEvery_tiling [1, 2, 3] 2 (by decide)

/-- C10: on the empty sequence, `all` is vacuously `true` and `any` is
`false`, in both the lists.js and the streams.ts implementations, for every
predicate. -/
theorem all_any_vacuous_on_empty (f : α → Bool) :
    Lists.all [] f = true ∧ Lists.any [] f = false
      ∧ Streams.all [] f = true ∧ Streams.any [] f = false := by
  refine ⟨rfl, rfl, rfl, rfl⟩

end Claims
